import Mathlib

/-!
Verification of the Revia Controller native audio core (revia_native.cpp).

Samples are modelled as real numbers, sample buffers as lists, and the
float arithmetic of the C++ code as exact real arithmetic.  Machine sizes
and counts are natural numbers.  Each definition mirrors one C function.
-/

namespace Revia

noncomputable section

/-- RMS energy of an audio buffer (audio_rms): 0 for an empty buffer,
otherwise the square root of the mean of the squared samples. -/
def audio_rms (samples : List ℝ) : ℝ :=
  if samples.length = 0 then 0
  else Real.sqrt ((samples.map (fun s => s * s)).sum / samples.length)

/-- Count of adjacent sign changes (the loop of audio_zero_crossing_rate):
one for each adjacent pair whose signs, read as the predicate 0 ≤ x, differ. -/
def zc_count : List ℝ → ℕ
  | a :: b :: rest => (if (0 ≤ b ↔ 0 ≤ a) then 0 else 1) + zc_count (b :: rest)
  | _ => 0

/-- Zero-crossing rate (audio_zero_crossing_rate): 0 for fewer than two
samples, otherwise the crossing count divided by n − 1. -/
def audio_zero_crossing_rate (samples : List ℝ) : ℝ :=
  if samples.length < 2 then 0
  else (zc_count samples : ℝ) / ((samples.length - 1 : ℕ) : ℝ)

/-- Short-time energy in dB (audio_energy_db): −100 when the RMS is below
1e−10, otherwise 20·log10(rms). -/
def audio_energy_db (samples : List ℝ) : ℝ :=
  if audio_rms samples < 1e-10 then -100 else 20 * Real.logb 10 (audio_rms samples)

/-- Voice activity decision for one frame (vad_detect): 0 when the energy is
below the threshold, 0 when the zero-crossing rate falls outside
[zcr_low, zcr_high], otherwise 1. -/
def vad_detect (samples : List ℝ) (energy_thresh zcr_low zcr_high : ℝ) : ℕ :=
  if audio_energy_db samples < energy_thresh then 0
  else if audio_zero_crossing_rate samples < zcr_low ∨
      zcr_high < audio_zero_crossing_rate samples then 0
  else 1

end

/-! The audio ring buffer (AudioRingBuffer, ring_create, ring_write,
ring_read, ring_available, ring_clear). -/

structure AudioRingBuffer where
  buf : List ℝ
  capacity : ℕ
  write_pos : ℕ
  read_pos : ℕ
  count : ℕ

/-- ring_create: storage zero-filled, cursors and count zero. -/
def ring_create (capacity : ℕ) : AudioRingBuffer :=
  { buf := List.replicate capacity 0, capacity := capacity,
    write_pos := 0, read_pos := 0, count := 0 }

/-- One iteration of the ring_write loop body: store the sample at the write
cursor, advance the cursor modulo the capacity, increment the count. -/
def ring_push (rb : AudioRingBuffer) (d : ℝ) : AudioRingBuffer :=
  { rb with
    buf := rb.buf.set rb.write_pos d,
    write_pos := (rb.write_pos + 1) % rb.capacity,
    count := rb.count + 1 }

/-- One iteration of the ring_read loop body: advance the read cursor modulo
the capacity and decrement the count. -/
def ring_pop (rb : AudioRingBuffer) : AudioRingBuffer :=
  { rb with
    read_pos := (rb.read_pos + 1) % rb.capacity,
    count := rb.count - 1 }

/-- ring_write: copy samples while count < capacity, advancing the write
cursor modulo the capacity; returns the updated buffer and the number
actually written. -/
def ring_write : AudioRingBuffer → List ℝ → AudioRingBuffer × ℕ
  | rb, [] => (rb, 0)
  | rb, d :: rest =>
    if rb.count < rb.capacity then
      let p := ring_write (ring_push rb d) rest
      (p.1, p.2 + 1)
    else (rb, 0)

/-- ring_read: copy and remove up to n samples from the oldest end, advancing
the read cursor modulo the capacity; returns the updated buffer and the list
of samples actually read. -/
def ring_read : AudioRingBuffer → ℕ → AudioRingBuffer × List ℝ
  | rb, 0 => (rb, [])
  | rb, n+1 =>
    if 0 < rb.count then
      let p := ring_read (ring_pop rb) n
      (p.1, rb.buf.getD rb.read_pos 0 :: p.2)
    else (rb, [])

/-- ring_available: the current count. -/
def ring_available (rb : AudioRingBuffer) : ℕ :=
  rb.count

/-- ring_clear: reset cursors and count, keeping the storage. -/
def ring_clear (rb : AudioRingBuffer) : AudioRingBuffer :=
  { rb with write_pos := 0, read_pos := 0, count := 0 }

/-- Structural invariant of a live ring buffer. -/
def ring_wf (rb : AudioRingBuffer) : Prop :=
  rb.buf.length = rb.capacity ∧ rb.count ≤ rb.capacity ∧
  rb.write_pos < rb.capacity ∧ rb.read_pos < rb.capacity ∧
  rb.write_pos = (rb.read_pos + rb.count) % rb.capacity

/-- Abstract contents of the ring buffer: the pending samples, oldest first. -/
def ring_contents (rb : AudioRingBuffer) : List ℝ :=
  (List.range rb.count).map (fun i => rb.buf.getD ((rb.read_pos + i) % rb.capacity) 0)

/-- One operation of the client-visible ring-buffer interface. -/
inductive RingOp where
  | write (data : List ℝ)
  | read (n : ℕ)
  | clear

/-- State transition of one interface operation. -/
def ring_step (rb : AudioRingBuffer) : RingOp → AudioRingBuffer
  | RingOp.write data => (ring_write rb data).1
  | RingOp.read n => (ring_read rb n).1
  | RingOp.clear => ring_clear rb

/-- State after a freshly created buffer has run a sequence of operations. -/
def ring_run (C : ℕ) (ops : List RingOp) : AudioRingBuffer :=
  ops.foldl ring_step (ring_create C)

/-- Applying a sequence of writes, as in the C3 round-trip property. -/
def ring_write_all (rb : AudioRingBuffer) (ws : List (List ℝ)) : AudioRingBuffer :=
  ws.foldl (fun rb w => (ring_write rb w).1) rb

noncomputable section

/-- Backward loop of audio_preemphasis: process indices hi, hi−1, …, 1, each
replaced by samples[i] − coeff·samples[i−1] against the current buffer. -/
def pre_go (coeff : ℝ) : List ℝ → ℕ → List ℝ
  | buf, 0 => buf
  | buf, i+1 => pre_go coeff (buf.set (i+1) (buf.getD (i+1) 0 - coeff * buf.getD i 0)) i

/-- audio_preemphasis: no-op for fewer than two samples; otherwise the
backward loop over indices n−1 … 1 followed by scaling the first sample by
1 − coeff. -/
def audio_preemphasis (samples : List ℝ) (coeff : ℝ) : List ℝ :=
  if samples.length < 2 then samples
  else
    let b := pre_go coeff samples (samples.length - 1)
    b.set 0 (b.getD 0 0 * (1 - coeff))

end

/-! Linear resampler (audio_resample_linear). -/

noncomputable section

/-- audio_resample_linear: empty output on empty input or a zero rate;
otherwise min(out_capacity, ceil(in_len/ratio)) samples, output i being the
linear interpolation of the input at source position i·ratio between the
floor index and the next index clamped to the last valid one. -/
def audio_resample_linear (input : List ℝ) (src_rate dst_rate : ℕ)
    (out_capacity : ℕ) : List ℝ :=
  if input.length = 0 ∨ src_rate = 0 ∨ dst_rate = 0 then []
  else
    let ratio : ℝ := (src_rate : ℝ) / (dst_rate : ℝ)
    let out_len : ℕ := min out_capacity ⌈(input.length : ℝ) / ratio⌉.toNat
    (List.range out_len).map (fun i : ℕ =>
      let src_idx : ℝ := (i : ℝ) * ratio
      let idx0 : ℕ := ⌊src_idx⌋.toNat
      let idx1 : ℕ := min (idx0 + 1) (input.length - 1)
      let frac : ℝ := src_idx - (idx0 : ℝ)
      input.getD idx0 0 * (1 - frac) + input.getD idx1 0 * frac)

end

/-! Frame-level scan (vad_detect_frames).  The C loop advances offset by
hop_size; with hop_size = 0 and a frame fitting the buffer it never
terminates, so the loop is embedded with a fuel argument, none denoting
divergence.  The wrapper supplies fuel total+1, enough for every hop ≥ 1. -/

noncomputable section

/-- Loop of vad_detect_frames: while off + frame_size ≤ total, classify the
frame at off and continue at off + hop_size. -/
def vad_frames_go (samples : List ℝ) (total frame_size hop_size : ℕ)
    (et zl zh : ℝ) : ℕ → ℕ → Option (List ℕ)
  | off, 0 => if off + frame_size ≤ total then none else some []
  | off, fuel+1 =>
    if off + frame_size ≤ total then
      (vad_frames_go samples total frame_size hop_size et zl zh (off + hop_size) fuel).map
        (fun rest => vad_detect ((samples.drop off).take frame_size) et zl zh :: rest)
    else some []

/-- vad_detect_frames on a whole buffer. -/
def vad_detect_frames (samples : List ℝ) (frame_size hop_size : ℕ)
    (et zl zh : ℝ) : Option (List ℕ) :=
  vad_frames_go samples samples.length frame_size hop_size et zl zh 0 (samples.length + 1)

end

/-- Number of loop iterations remaining when the scan stands at offset off. -/
def vad_frames_count (total frame_size hop_size off : ℕ) : ℕ :=
  if off + frame_size ≤ total then (total - frame_size - off) / hop_size + 1 else 0

/-! Wake-word segment extractor (find_voiced_segments). -/

noncomputable section

/-- Loop of find_voiced_segments over non-overlapping frames: gate each frame
on energy only, track the current voiced run, and on a transition to an
unvoiced frame (and once more at end of input, with end = n) emit
[run_start, off) when min_frames ≤ run ≤ max_frames and fewer than
max_segments segments are out. -/
def fvs_go (samples : List ℝ) (n frame_size : ℕ) (energy_thresh : ℝ)
    (min_frames max_frames max_segments : ℕ)
    (off voiced_run run_start : ℕ) (segs : List (ℕ × ℕ)) : List (ℕ × ℕ) :=
  if h : 0 < frame_size ∧ off + frame_size ≤ n then
    if energy_thresh ≤ audio_energy_db ((samples.drop off).take frame_size) then
      fvs_go samples n frame_size energy_thresh min_frames max_frames max_segments
        (off + frame_size) (voiced_run + 1)
        (if voiced_run = 0 then off else run_start) segs
    else
      fvs_go samples n frame_size energy_thresh min_frames max_frames max_segments
        (off + frame_size) 0 run_start
        (if min_frames ≤ voiced_run ∧ voiced_run ≤ max_frames ∧
            segs.length < max_segments
          then segs ++ [(run_start, off)] else segs)
  else
    if min_frames ≤ voiced_run ∧ voiced_run ≤ max_frames ∧
        segs.length < max_segments
    then segs ++ [(run_start, n)] else segs
termination_by n + 1 - off
decreasing_by all_goals omega

/-- find_voiced_segments: frame size sampleRate·frameMs/1000 (integer
division); empty result when it is zero or exceeds the input; otherwise the
single-pass run scan with minFrames = ceil(minDurMs/frameMs) and
maxFrames = floor(maxDurMs/frameMs). -/
def find_voiced_segments (samples : List ℝ) (sample_rate frame_ms : ℕ)
    (energy_thresh : ℝ) (min_dur_ms max_dur_ms max_segments : ℕ) : List (ℕ × ℕ) :=
  if sample_rate * frame_ms / 1000 = 0 ∨ samples.length < sample_rate * frame_ms / 1000
  then []
  else
    fvs_go samples samples.length (sample_rate * frame_ms / 1000) energy_thresh
      ((min_dur_ms + frame_ms - 1) / frame_ms) (max_dur_ms / frame_ms) max_segments
      0 0 0 []

/-- Energy gate decisions of the successive non-overlapping frames starting
at a given offset. -/
def fvs_flags (samples : List ℝ) (n frame_size : ℕ) (energy_thresh : ℝ)
    (off : ℕ) : List Bool :=
  if h : 0 < frame_size ∧ off + frame_size ≤ n then
    decide (energy_thresh ≤ audio_energy_db ((samples.drop off).take frame_size)) ::
      fvs_flags samples n frame_size energy_thresh (off + frame_size)
  else []
termination_by n + 1 - off
decreasing_by omega

end

/-- Run scan at the level of per-frame flags, mirroring fvs_go. -/
def seg_go (min_frames max_frames max_segments frame_size n : ℕ) :
    List Bool → ℕ → ℕ → ℕ → List (ℕ × ℕ) → List (ℕ × ℕ)
  | [], _, voiced_run, run_start, segs =>
    if min_frames ≤ voiced_run ∧ voiced_run ≤ max_frames ∧
        segs.length < max_segments
    then segs ++ [(run_start, n)] else segs
  | true :: rest, off, voiced_run, run_start, segs =>
    seg_go min_frames max_frames max_segments frame_size n rest
      (off + frame_size) (voiced_run + 1)
      (if voiced_run = 0 then off else run_start) segs
  | false :: rest, off, voiced_run, run_start, segs =>
    seg_go min_frames max_frames max_segments frame_size n rest
      (off + frame_size) 0 run_start
      (if min_frames ≤ voiced_run ∧ voiced_run ≤ max_frames ∧
          segs.length < max_segments
        then segs ++ [(run_start, off)] else segs)

/-- Maximal runs of consecutive voiced frames in a flag sequence, given the
index of the next frame and the length of the run currently open:
(startFrame, runFrames) pairs in scan order. -/
def contRuns : ℕ → ℕ → List Bool → List (ℕ × ℕ)
  | i, r, [] => if 0 < r then [(i - r, r)] else []
  | i, r, true :: rest => contRuns (i+1) (r+1) rest
  | i, r, false :: rest =>
    (if 0 < r then [(i - r, r)] else []) ++ contRuns (i+1) 0 rest

/-- Spec-side description of the segment extractor, following the claim: keep
the maximal voiced runs whose length lies in [minFrames, maxFrames], truncate
to maxSegments, and map each run to the half-open sample interval
[start·frameSize, end·frameSize) — except that a run reaching the end of the
scan ends at n instead. -/
def fvsSpec (flags : List Bool) (frame_size n min_frames max_frames max_segments : ℕ) :
    List (ℕ × ℕ) :=
  (((contRuns 0 0 flags).filter
      (fun r => decide (min_frames ≤ r.2 ∧ r.2 ≤ max_frames))).take max_segments).map
    (fun r => (r.1 * frame_size,
      if r.1 + r.2 = flags.length then n else (r.1 + r.2) * frame_size))

/-! Basic facts about the classifier. -/

theorem zc_count_le (samples : List ℝ) : zc_count samples ≤ samples.length - 1 := by
  induction samples with
  | nil => simp [zc_count]
  | cons a rest ih =>
    match rest with
    | [] => simp [zc_count]
    | b :: rest =>
      rw [zc_count]
      split
      · simpa using Nat.le_trans ih (by simp)
      · have h := ih
        simp only [List.length_cons, Nat.add_sub_cancel] at h ⊢
        omega

theorem audio_zero_crossing_rate_nonneg (samples : List ℝ) :
    0 ≤ audio_zero_crossing_rate samples := by
  unfold audio_zero_crossing_rate
  split
  · exact le_refl 0
  · positivity

theorem audio_zero_crossing_rate_le_one (samples : List ℝ) :
    audio_zero_crossing_rate samples ≤ 1 := by
  unfold audio_zero_crossing_rate
  split
  · exact zero_le_one
  · rename_i h
    have h2 : 2 ≤ samples.length := by omega
    have hpos : (0:ℝ) < ((samples.length - 1 : ℕ) : ℝ) := by
      have : 1 ≤ samples.length - 1 := by omega
      exact_mod_cast Nat.lt_of_lt_of_le Nat.zero_lt_one this
    rw [div_le_one hpos]
    exact_mod_cast zc_count_le samples

/-- C2: vad_detect returns 1 iff the energy is at least the threshold and the
zero-crossing rate lies in [zcr_low, zcr_high]; otherwise it returns 0. -/
theorem C2_vad_detect_iff (samples : List ℝ) (et zl zh : ℝ) :
    (vad_detect samples et zl zh = 1 ↔
      (et ≤ audio_energy_db samples ∧ zl ≤ audio_zero_crossing_rate samples ∧
        audio_zero_crossing_rate samples ≤ zh)) ∧
    (vad_detect samples et zl zh = 0 ↔
      ¬ (et ≤ audio_energy_db samples ∧ zl ≤ audio_zero_crossing_rate samples ∧
        audio_zero_crossing_rate samples ≤ zh)) := by
  unfold vad_detect
  split
  · rename_i h
    constructor
    · constructor
      · intro h1; exact absurd h1 (by norm_num)
      · intro ⟨h1, _⟩; exact absurd h1 (not_le.mpr h)
    · constructor
      · intro _ ⟨h1, _⟩; exact absurd h1 (not_le.mpr h)
      · intro _; rfl
  · rename_i h
    push_neg at h
    split
    · rename_i h2
      constructor
      · constructor
        · intro h1; exact absurd h1 (by norm_num)
        · intro ⟨_, h3, h4⟩
          rcases h2 with h2 | h2
          · exact absurd h3 (not_le.mpr h2)
          · exact absurd h4 (not_le.mpr h2)
      · constructor
        · intro _ ⟨_, h3, h4⟩
          rcases h2 with h2 | h2
          · exact absurd h3 (not_le.mpr h2)
          · exact absurd h4 (not_le.mpr h2)
        · intro _; rfl
    · rename_i h2
      push_neg at h2
      constructor
      · constructor
        · intro _; exact ⟨h, h2.1, h2.2⟩
        · intro _; rfl
      · constructor
        · intro h0; exact absurd h0 (by norm_num)
        · intro hn; exact absurd ⟨h, h2.1, h2.2⟩ hn

/-- C5: audio_energy_db is 20·log10(rms) when rms ≥ 1e−10 and exactly −100
when rms < 1e−10; rms of an empty or all-zero frame is 0, hence its energy is
exactly −100. -/
theorem C5_energy_db_spec :
    (∀ samples : List ℝ, 1e-10 ≤ audio_rms samples →
      audio_energy_db samples = 20 * Real.logb 10 (audio_rms samples)) ∧
    (∀ samples : List ℝ, audio_rms samples < 1e-10 →
      audio_energy_db samples = -100) ∧
    audio_rms [] = 0 ∧
    (∀ n : ℕ, audio_rms (List.replicate n 0) = 0 ∧
      audio_energy_db (List.replicate n 0) = -100) := by
  have hzero : ∀ n : ℕ, audio_rms (List.replicate n 0) = 0 := by
    intro n
    unfold audio_rms
    split
    · rfl
    · simp
  refine ⟨?_, ?_, ?_, ?_⟩
  · intro samples h
    unfold audio_energy_db
    rw [if_neg (not_lt.mpr h)]
  · intro samples h
    unfold audio_energy_db
    rw [if_pos h]
  · simp [audio_rms]
  · intro n
    refine ⟨hzero n, ?_⟩
    unfold audio_energy_db
    rw [if_pos (by rw [hzero n]; norm_num)]

/-- Witness for C5 at concrete frames: the frame [1] has rms 1 ≥ 1e−10 and
energy 20·log10(1); the frame [0] has rms 0 < 1e−10 and energy −100. -/
theorem C5_energy_db_witness :
    audio_energy_db [(1:ℝ)] = 20 * Real.logb 10 (audio_rms [(1:ℝ)]) ∧
    audio_energy_db [(0:ℝ)] = -100 := by
  have h1 : audio_rms [(1:ℝ)] = 1 := by
    unfold audio_rms
    norm_num
  have h0 : audio_rms [(0:ℝ)] = 0 := by
    unfold audio_rms
    norm_num
  exact ⟨C5_energy_db_spec.1 [(1:ℝ)] (by rw [h1]; norm_num),
    C5_energy_db_spec.2.1 [(0:ℝ)] (by rw [h0]; norm_num)⟩

theorem zc_count_eq_countP (s : List ℝ) :
    zc_count s = (List.range (s.length - 1)).countP
      (fun i => decide ¬ (0 ≤ s.getD i 0 ↔ 0 ≤ s.getD (i+1) 0)) := by
  induction s with
  | nil => simp [zc_count]
  | cons a rest ih =>
    cases rest with
    | nil => simp [zc_count]
    | cons b rest2 =>
      rw [zc_count, ih]
      rw [show ((a :: b :: rest2).length - 1) = rest2.length + 1 by simp,
        show ((b :: rest2).length - 1) = rest2.length by simp,
        List.range_succ_eq_map, List.countP_cons, List.countP_map]
      have hcomp :
          ((fun i => decide ¬ ((0:ℝ) ≤ (a :: b :: rest2).getD i 0 ↔
            (0:ℝ) ≤ (a :: b :: rest2).getD (i+1) 0)) ∘ Nat.succ) =
          (fun i => decide ¬ ((0:ℝ) ≤ (b :: rest2).getD i 0 ↔
            (0:ℝ) ≤ (b :: rest2).getD (i+1) 0)) := by
        funext i
        simp only [Function.comp_apply, Nat.succ_eq_add_one, List.getD_cons_succ]
      rw [hcomp]
      simp only [List.getD_cons_zero, List.getD_cons_succ]
      by_cases h : (0:ℝ) ≤ a ↔ (0:ℝ) ≤ b
      · rw [if_pos (Iff.comm.mp h)]
        simp [h]
      · rw [if_neg (fun hc => h (Iff.comm.mp hc))]
        simp [h, Nat.add_comm]

theorem zc_count_const (s : List ℝ) (h : (∀ x ∈ s, 0 ≤ x) ∨ (∀ x ∈ s, x < 0)) :
    zc_count s = 0 := by
  induction s with
  | nil => simp [zc_count]
  | cons a rest ih =>
    cases rest with
    | nil => simp [zc_count]
    | cons b rest2 =>
      rw [zc_count]
      have hrest : (∀ x ∈ b :: rest2, (0:ℝ) ≤ x) ∨ (∀ x ∈ b :: rest2, x < 0) := by
        rcases h with h | h
        · exact Or.inl (fun x hx => h x (List.mem_cons_of_mem a hx))
        · exact Or.inr (fun x hx => h x (List.mem_cons_of_mem a hx))
      rw [ih hrest]
      rcases h with h | h
      · rw [if_pos ⟨fun _ => h a (by simp), fun _ => h b (by simp)⟩]
      · have ha := h a (by simp)
        have hb := h b (by simp)
        rw [if_pos ⟨fun hc => absurd hc (not_le.mpr hb), fun hc => absurd hc (not_le.mpr ha)⟩]

theorem zc_count_alternating (s : List ℝ)
    (h : List.Chain' (fun a b => ¬ ((0:ℝ) ≤ a ↔ (0:ℝ) ≤ b)) s) :
    zc_count s = s.length - 1 := by
  induction s with
  | nil => simp [zc_count]
  | cons a rest ih =>
    cases rest with
    | nil => simp [zc_count]
    | cons b rest2 =>
      rw [zc_count]
      rw [List.chain'_cons] at h
      rw [ih h.2]
      rw [if_neg (fun hc => h.1 (Iff.comm.mp hc))]
      simp only [List.length_cons, Nat.add_sub_cancel]
      omega

/-- C6: the zero-crossing rate is 0 for frames shorter than 2 samples; for
length n ≥ 2 it is the number of adjacent pairs with differing sign (sign
being 0 ≤ x versus x < 0) divided by n − 1; it always lies in [0, 1]; it is 0
for constant-sign frames and 1 for strictly alternating-sign frames. -/
theorem C6_zero_crossing_rate_spec :
    (∀ s : List ℝ, s.length < 2 → audio_zero_crossing_rate s = 0) ∧
    (∀ s : List ℝ, 2 ≤ s.length →
      audio_zero_crossing_rate s =
        (((List.range (s.length - 1)).countP
          (fun i => decide ¬ (0 ≤ s.getD i 0 ↔ 0 ≤ s.getD (i+1) 0)) : ℕ) : ℝ) /
        ((s.length - 1 : ℕ) : ℝ)) ∧
    (∀ s : List ℝ, 0 ≤ audio_zero_crossing_rate s ∧ audio_zero_crossing_rate s ≤ 1) ∧
    (∀ s : List ℝ, ((∀ x ∈ s, 0 ≤ x) ∨ (∀ x ∈ s, x < 0)) →
      audio_zero_crossing_rate s = 0) ∧
    (∀ s : List ℝ, 2 ≤ s.length →
      List.Chain' (fun a b => ¬ ((0:ℝ) ≤ a ↔ (0:ℝ) ≤ b)) s →
      audio_zero_crossing_rate s = 1) := by
  refine ⟨?_, ?_, ?_, ?_, ?_⟩
  · intro s h
    unfold audio_zero_crossing_rate
    rw [if_pos h]
  · intro s h
    unfold audio_zero_crossing_rate
    rw [if_neg (not_lt.mpr h), zc_count_eq_countP]
  · intro s
    exact ⟨audio_zero_crossing_rate_nonneg s, audio_zero_crossing_rate_le_one s⟩
  · intro s h
    unfold audio_zero_crossing_rate
    split
    · rfl
    · rw [zc_count_const s h]
      simp
  · intro s hlen h
    unfold audio_zero_crossing_rate
    rw [if_neg (not_lt.mpr hlen), zc_count_alternating s h]
    have hne : ((s.length - 1 : ℕ) : ℝ) ≠ 0 := by
      have h1 : s.length - 1 ≠ 0 := by omega
      exact_mod_cast h1
    exact div_self hne

/-- Witness for C6 at concrete frames: a single sample, a constant-sign pair,
a negative constant-sign pair, and an alternating triple. -/
theorem C6_zero_crossing_rate_witness :
    audio_zero_crossing_rate [(5:ℝ)] = 0 ∧
    audio_zero_crossing_rate [(1:ℝ), 1] = 0 ∧
    audio_zero_crossing_rate [(-1:ℝ), -1] = 0 ∧
    audio_zero_crossing_rate [(1:ℝ), -1, 1] = 1 := by
  refine ⟨C6_zero_crossing_rate_spec.1 [(5:ℝ)] (by simp),
    C6_zero_crossing_rate_spec.2.2.2.1 _ (Or.inl ?_),
    C6_zero_crossing_rate_spec.2.2.2.1 _ (Or.inr ?_),
    C6_zero_crossing_rate_spec.2.2.2.2 _ (by simp) ?_⟩
  · intro x hx
    simp only [List.mem_cons, List.not_mem_nil, or_false, or_self] at hx
    norm_num [hx]
  · intro x hx
    simp only [List.mem_cons, List.not_mem_nil, or_false, or_self] at hx
    norm_num [hx]
  · rw [List.chain'_cons, List.chain'_cons]
    norm_num

theorem ring_contents_length (rb : AudioRingBuffer) :
    (ring_contents rb).length = rb.count := by
  simp [ring_contents]

theorem ring_create_wf (C : ℕ) (hC : 1 ≤ C) : ring_wf (ring_create C) := by
  refine ⟨by simp [ring_create], by simp [ring_create], ?_, ?_, ?_⟩ <;>
    simp [ring_create] <;> omega

theorem ring_create_contents (C : ℕ) : ring_contents (ring_create C) = [] := by
  simp [ring_contents, ring_create]

theorem mod_inj_of_lt {C i j a : ℕ} (hi : i < C) (hj : j < C)
    (h : (a + i) % C = (a + j) % C) : i = j := by
  have h2 : i % C = j % C := Nat.ModEq.add_left_cancel (Nat.ModEq.refl a) h
  rwa [Nat.mod_eq_of_lt hi, Nat.mod_eq_of_lt hj] at h2

/-- One write step appends the sample to the abstract contents. -/
theorem ring_push_step (rb : AudioRingBuffer) (d : ℝ) (hwf : ring_wf rb)
    (hroom : rb.count < rb.capacity) :
    ring_wf (ring_push rb d) ∧
    ring_contents (ring_push rb d) = ring_contents rb ++ [d] := by
  obtain ⟨hlen, hcnt, hwp, hrp, heq⟩ := hwf
  have hCpos : 0 < rb.capacity := Nat.lt_of_le_of_lt (Nat.zero_le _) hwp
  constructor
  · refine ⟨by simp [ring_push, hlen], by simp [ring_push]; omega,
      by simpa [ring_push] using Nat.mod_lt _ hCpos, by simpa [ring_push] using hrp, ?_⟩
    simp only [ring_push]
    rw [heq, Nat.mod_add_mod, Nat.add_assoc]
  · unfold ring_contents ring_push
    simp only [List.range_succ, List.map_append, List.map_cons, List.map_nil]
    congr 1
    · apply List.map_congr_left
      intro i hi
      rw [List.mem_range] at hi
      have hne : (rb.read_pos + i) % rb.capacity ≠ rb.write_pos := by
        rw [heq]
        intro hc
        have hij := mod_inj_of_lt (Nat.lt_of_lt_of_le hi hcnt) hroom hc
        omega
      rw [List.getD_eq_getElem?_getD, List.getD_eq_getElem?_getD,
        List.getElem?_set_ne (fun hc => hne hc.symm)]
    · have hidx : (rb.read_pos + rb.count) % rb.capacity = rb.write_pos := heq.symm
      rw [hidx, List.getD_eq_getElem?_getD, List.getElem?_set_self',
        List.getElem?_eq_getElem (by rw [hlen]; exact hwp)]
      rfl

/-- Writing data that fits entirely appends it to the abstract contents and
returns the full input length. -/
theorem ring_write_fits (data : List ℝ) : ∀ rb : AudioRingBuffer, ring_wf rb →
    rb.count + data.length ≤ rb.capacity →
    ring_wf (ring_write rb data).1 ∧
    ring_contents (ring_write rb data).1 = ring_contents rb ++ data ∧
    (ring_write rb data).2 = data.length ∧
    (ring_write rb data).1.count = rb.count + data.length ∧
    (ring_write rb data).1.capacity = rb.capacity := by
  induction data with
  | nil =>
    intro rb hwf _
    simp only [ring_write, List.length_nil]
    exact ⟨hwf, by simp, by simp, by simp, by simp⟩
  | cons d rest ih =>
    intro rb hwf hfit
    have hroom : rb.count < rb.capacity := by
      simp only [List.length_cons] at hfit; omega
    obtain ⟨hwf2, hcont2⟩ := ring_push_step rb d hwf hroom
    have hfit2 : (ring_push rb d).count + rest.length ≤ (ring_push rb d).capacity := by
      simp only [List.length_cons] at hfit
      simp only [ring_push]
      omega
    obtain ⟨h1, h2, h3, h4, h5⟩ := ih (ring_push rb d) hwf2 hfit2
    have hstep : ring_write rb (d :: rest) =
        ((ring_write (ring_push rb d) rest).1, (ring_write (ring_push rb d) rest).2 + 1) := by
      simp only [ring_write]
      rw [if_pos hroom]
    rw [hstep]
    have hcnt2 : (ring_push rb d).count = rb.count + 1 := by simp [ring_push]
    have hcap2 : (ring_push rb d).capacity = rb.capacity := by simp [ring_push]
    refine ⟨h1, ?_, by simp [h3], ?_, by rw [h5, hcap2]⟩
    · rw [h2, hcont2]
      simp
    · rw [h4, hcnt2]
      simp only [List.length_cons]
      omega

/-- One read step removes the head of the abstract contents. -/
theorem ring_pop_step (rb : AudioRingBuffer) (hwf : ring_wf rb)
    (hpos : 0 < rb.count) :
    ring_wf (ring_pop rb) ∧
    rb.buf.getD rb.read_pos 0 :: ring_contents (ring_pop rb) = ring_contents rb := by
  obtain ⟨hlen, hcnt, hwp, hrp, heq⟩ := hwf
  have hCpos : 0 < rb.capacity := Nat.lt_of_le_of_lt (Nat.zero_le _) hwp
  constructor
  · refine ⟨by simpa [ring_pop] using hlen, by simp [ring_pop]; omega,
      by simpa [ring_pop] using hwp, by simpa [ring_pop] using Nat.mod_lt _ hCpos, ?_⟩
    simp only [ring_pop]
    rw [heq, Nat.mod_add_mod]
    congr 1
    omega
  · unfold ring_contents ring_pop
    simp only
    obtain ⟨k, hk⟩ : ∃ k, rb.count = k + 1 := ⟨rb.count - 1, by omega⟩
    rw [hk]
    simp only [Nat.add_sub_cancel, List.range_succ_eq_map, List.map_cons, List.map_map]
    congr 1
    · rw [Nat.add_zero, Nat.mod_eq_of_lt hrp]
    · apply List.map_congr_left
      intro i _
      simp only [Function.comp_apply, Nat.succ_eq_add_one, Nat.mod_add_mod]
      congr 2
      omega

/-- Reading k ≤ count samples returns the first k abstract contents and
leaves the rest. -/
theorem ring_read_spec (k : ℕ) : ∀ rb : AudioRingBuffer, ring_wf rb →
    k ≤ rb.count →
    ring_wf (ring_read rb k).1 ∧
    (ring_read rb k).2 = (ring_contents rb).take k ∧
    ring_contents (ring_read rb k).1 = (ring_contents rb).drop k ∧
    (ring_read rb k).1.count = rb.count - k ∧
    (ring_read rb k).1.capacity = rb.capacity := by
  induction k with
  | zero =>
    intro rb hwf _
    simp only [ring_read]
    exact ⟨hwf, by simp, by simp, by simp, by simp⟩
  | succ k ih =>
    intro rb hwf hk
    have hpos : 0 < rb.count := by omega
    obtain ⟨hwf2, hcont2⟩ := ring_pop_step rb hwf hpos
    have hstep : ring_read rb (k+1) =
        ((ring_read (ring_pop rb) k).1,
          rb.buf.getD rb.read_pos 0 :: (ring_read (ring_pop rb) k).2) := by
      simp only [ring_read]
      rw [if_pos hpos]
    rw [hstep]
    have hk2 : k ≤ (ring_pop rb).count := by simp [ring_pop]; omega
    obtain ⟨h1, h2, h3, h4, h5⟩ := ih (ring_pop rb) hwf2 hk2
    have hcnt2 : (ring_pop rb).count = rb.count - 1 := by simp [ring_pop]
    have hcap2 : (ring_pop rb).capacity = rb.capacity := by simp [ring_pop]
    refine ⟨h1, ?_, ?_, by rw [h4, hcnt2]; omega, by rw [h5, hcap2]⟩
    · rw [h2, ← hcont2]
      simp
    · rw [h3, ← hcont2]
      simp

/-- Writing arbitrary data writes min(n, capacity − count) samples and keeps
the invariant. -/
theorem ring_write_general (data : List ℝ) : ∀ rb : AudioRingBuffer, ring_wf rb →
    ring_wf (ring_write rb data).1 ∧
    (ring_write rb data).2 = min data.length (rb.capacity - rb.count) ∧
    (ring_write rb data).1.count =
      rb.count + min data.length (rb.capacity - rb.count) ∧
    (ring_write rb data).1.capacity = rb.capacity := by
  induction data with
  | nil =>
    intro rb hwf
    simp only [ring_write]
    exact ⟨hwf, by simp, by simp, by simp⟩
  | cons d rest ih =>
    intro rb hwf
    by_cases hroom : rb.count < rb.capacity
    · obtain ⟨hwf2, _⟩ := ring_push_step rb d hwf hroom
      have hstep : ring_write rb (d :: rest) =
          ((ring_write (ring_push rb d) rest).1, (ring_write (ring_push rb d) rest).2 + 1) := by
        simp only [ring_write]
        rw [if_pos hroom]
      rw [hstep]
      obtain ⟨h1, h2, h3, h4⟩ := ih (ring_push rb d) hwf2
      have hcnt2 : (ring_push rb d).count = rb.count + 1 := by simp [ring_push]
      have hcap2 : (ring_push rb d).capacity = rb.capacity := by simp [ring_push]
      rw [hcnt2, hcap2] at h2 h3
      refine ⟨h1, ?_, ?_, by rw [h4, hcap2]⟩
      · rw [h2]
        simp only [List.length_cons]
        omega
      · rw [h3]
        simp only [List.length_cons]
        omega
    · have hfull : rb.count = rb.capacity := by
        obtain ⟨_, hcnt, _, _, _⟩ := hwf
        omega
      have hstep : ring_write rb (d :: rest) = (rb, 0) := by
        simp only [ring_write]
        rw [if_neg hroom]
      rw [hstep]
      exact ⟨hwf, by simp [hfull], by simp [hfull], rfl⟩

/-- Reading any n samples reads min(n, count), leaving count − n, and keeps
the invariant. -/
theorem ring_read_general (k : ℕ) : ∀ rb : AudioRingBuffer, ring_wf rb →
    ring_wf (ring_read rb k).1 ∧
    (ring_read rb k).2.length = min k rb.count ∧
    (ring_read rb k).1.count = rb.count - k ∧
    (ring_read rb k).1.capacity = rb.capacity := by
  induction k with
  | zero =>
    intro rb hwf
    simp only [ring_read]
    exact ⟨hwf, by simp, by simp, by simp⟩
  | succ k ih =>
    intro rb hwf
    by_cases hpos : 0 < rb.count
    · obtain ⟨hwf2, _⟩ := ring_pop_step rb hwf hpos
      have hstep : ring_read rb (k+1) =
          ((ring_read (ring_pop rb) k).1,
            rb.buf.getD rb.read_pos 0 :: (ring_read (ring_pop rb) k).2) := by
        simp only [ring_read]
        rw [if_pos hpos]
      rw [hstep]
      obtain ⟨h1, h2, h3, h4⟩ := ih (ring_pop rb) hwf2
      have hcnt2 : (ring_pop rb).count = rb.count - 1 := by simp [ring_pop]
      have hcap2 : (ring_pop rb).capacity = rb.capacity := by simp [ring_pop]
      rw [hcnt2] at h2 h3
      rw [hcap2] at h4
      refine ⟨h1, ?_, by rw [h3]; omega, h4⟩
      simp only [List.length_cons, h2]
      omega
    · have hzero : rb.count = 0 := by omega
      have hstep : ring_read rb (k+1) = (rb, []) := by
        simp only [ring_read]
        rw [if_neg hpos]
      rw [hstep]
      exact ⟨hwf, by simp [hzero], by simp [hzero], rfl⟩

theorem ring_clear_wf (rb : AudioRingBuffer) (hwf : ring_wf rb) :
    ring_wf (ring_clear rb) ∧ (ring_clear rb).capacity = rb.capacity := by
  obtain ⟨hlen, _, hwp, _, _⟩ := hwf
  have hCpos : 0 < rb.capacity := Nat.lt_of_le_of_lt (Nat.zero_le _) hwp
  exact ⟨⟨by simpa [ring_clear] using hlen, by simp [ring_clear],
    by simpa [ring_clear] using hCpos, by simpa [ring_clear] using hCpos,
    by simp [ring_clear]⟩, rfl⟩

theorem ring_step_wf (rb : AudioRingBuffer) (op : RingOp) (hwf : ring_wf rb) :
    ring_wf (ring_step rb op) ∧ (ring_step rb op).capacity = rb.capacity := by
  cases op with
  | write data =>
    obtain ⟨h1, _, _, h4⟩ := ring_write_general data rb hwf
    exact ⟨h1, h4⟩
  | read n =>
    obtain ⟨h1, _, _, h4⟩ := ring_read_general n rb hwf
    exact ⟨h1, h4⟩
  | clear => exact ring_clear_wf rb hwf

theorem ring_fold_wf (ops : List RingOp) : ∀ rb : AudioRingBuffer, ring_wf rb →
    ring_wf (ops.foldl ring_step rb) ∧
    (ops.foldl ring_step rb).capacity = rb.capacity := by
  induction ops with
  | nil => intro rb hwf; exact ⟨hwf, rfl⟩
  | cons op rest ih =>
    intro rb hwf
    obtain ⟨h1, h2⟩ := ring_step_wf rb op hwf
    obtain ⟨h3, h4⟩ := ih (ring_step rb op) h1
    exact ⟨by simpa using h3, by simp only [List.foldl_cons]; rw [h4, h2]⟩

/-- C4: after any operation sequence on a buffer of capacity C ≥ 1, the count
stays within [0, C], both cursors stay within [0, C), available() returns the
count, and an overflowing write returns the short count C − count. -/
theorem C4_ring_invariants (C : ℕ) (hC : 1 ≤ C) (ops : List RingOp) :
    (ring_run C ops).capacity = C ∧
    (ring_run C ops).count ≤ C ∧
    (ring_run C ops).write_pos < C ∧
    (ring_run C ops).read_pos < C ∧
    ring_available (ring_run C ops) = (ring_run C ops).count ∧
    (∀ data : List ℝ, C < (ring_run C ops).count + data.length →
      (ring_write (ring_run C ops) data).2 = C - (ring_run C ops).count) := by
  obtain ⟨hwf, hcap⟩ := ring_fold_wf ops (ring_create C) (ring_create_wf C hC)
  rw [show (ring_create C).capacity = C from rfl] at hcap
  have hrun : ring_run C ops = ops.foldl ring_step (ring_create C) := rfl
  rw [hrun]
  have hinv := hwf
  obtain ⟨_, hcnt, hwp, hrp, _⟩ := hinv
  refine ⟨hcap, by omega, by omega, by omega, rfl, ?_⟩
  intro data hover
  obtain ⟨_, h2, _, _⟩ := ring_write_general data _ hwf
  rw [h2, hcap]
  have hlen : C - (ops.foldl ring_step (ring_create C)).count ≤ data.length := by omega
  omega

/-- Witness for C4: capacity 1, the empty operation sequence, and an
overflowing two-sample write. -/
theorem C4_ring_invariants_witness :
    (ring_run 1 []).capacity = 1 ∧
    (ring_run 1 []).count ≤ 1 ∧
    (ring_run 1 []).write_pos < 1 ∧
    (ring_run 1 []).read_pos < 1 ∧
    ring_available (ring_run 1 []) = (ring_run 1 []).count ∧
    (ring_write (ring_run 1 []) [0, 0]).2 = 1 - (ring_run 1 []).count := by
  have h := C4_ring_invariants 1 (by norm_num) []
  exact ⟨h.1, h.2.1, h.2.2.1, h.2.2.2.1, h.2.2.2.2.1,
    h.2.2.2.2.2 [0, 0] (by simp [ring_run, ring_create])⟩

theorem ring_write_all_spec (ws : List (List ℝ)) : ∀ rb : AudioRingBuffer,
    ring_wf rb → rb.count + (ws.map List.length).sum ≤ rb.capacity →
    ring_wf (ring_write_all rb ws) ∧
    ring_contents (ring_write_all rb ws) = ring_contents rb ++ ws.flatten ∧
    (ring_write_all rb ws).count = rb.count + (ws.map List.length).sum := by
  induction ws with
  | nil =>
    intro rb hwf _
    exact ⟨hwf, by simp [ring_write_all], by simp [ring_write_all]⟩
  | cons w rest ih =>
    intro rb hwf hfit
    simp only [List.map_cons, List.sum_cons] at hfit
    have hfit1 : rb.count + w.length ≤ rb.capacity := by omega
    obtain ⟨h1, h2, _, h4, h5⟩ := ring_write_fits w rb hwf hfit1
    have hfit2 : (ring_write rb w).1.count + (rest.map List.length).sum ≤
        (ring_write rb w).1.capacity := by
      rw [h4, h5]
      omega
    obtain ⟨g1, g2, g3⟩ := ih (ring_write rb w).1 h1 hfit2
    have hall : ring_write_all rb (w :: rest) = ring_write_all (ring_write rb w).1 rest := by
      simp [ring_write_all]
    rw [hall]
    refine ⟨g1, ?_, by rw [g3, h4]; simp; omega⟩
    rw [g2, h2]
    simp

/-- C3: writing any sequence of chunks whose total length fits the capacity
and then reading everything available returns exactly the concatenation of
the written samples in order. -/
theorem C3_write_read_roundtrip (C : ℕ) (hC : 1 ≤ C) (ws : List (List ℝ))
    (hfit : (ws.map List.length).sum ≤ C) :
    (ring_read (ring_write_all (ring_create C) ws)
      (ring_available (ring_write_all (ring_create C) ws))).2 = ws.flatten := by
  have hfit0 : (ring_create C).count + (ws.map List.length).sum ≤ (ring_create C).capacity := by
    simpa [ring_create] using hfit
  obtain ⟨h1, h2, h3⟩ := ring_write_all_spec ws (ring_create C) (ring_create_wf C hC) hfit0
  obtain ⟨_, g2, _, _, _⟩ := ring_read_spec (ring_write_all (ring_create C) ws).count _ h1
    (le_refl _)
  rw [ring_available, g2, h2, ring_create_contents]
  have hlen : ((ring_write_all (ring_create C) ws).count) = ws.flatten.length := by
    have := ring_contents_length (ring_write_all (ring_create C) ws)
    rw [h2, ring_create_contents] at this
    simpa using this.symm
  rw [hlen]
  simp

/-- Witness for C3: capacity 2, two one-sample writes, full read-back. -/
theorem C3_write_read_roundtrip_witness :
    (ring_read (ring_write_all (ring_create 2) [[(3:ℝ)], [4]])
      (ring_available (ring_write_all (ring_create 2) [[(3:ℝ)], [4]]))).2 = [(3:ℝ), 4] := by
  have h := C3_write_read_roundtrip 2 (by norm_num) [[(3:ℝ)], [4]] (by simp)
  rw [h]
  simp

/-! Pre-emphasis filter (audio_preemphasis). -/

theorem getD_set_ne (l : List ℝ) (i j : ℕ) (a : ℝ) (h : i ≠ j) :
    (l.set i a).getD j 0 = l.getD j 0 := by
  rw [List.getD_eq_getElem?_getD, List.getD_eq_getElem?_getD, List.getElem?_set_ne h]

theorem getD_set_self (l : List ℝ) (i : ℕ) (a : ℝ) (h : i < l.length) :
    (l.set i a).getD i 0 = a := by
  rw [List.getD_eq_getElem?_getD, List.getElem?_set_self', List.getElem?_eq_getElem h]
  rfl

theorem pre_go_length (coeff : ℝ) : ∀ (i : ℕ) (buf : List ℝ),
    (pre_go coeff buf i).length = buf.length := by
  intro i
  induction i with
  | zero => intro buf; rfl
  | succ k ih =>
    intro buf
    rw [pre_go, ih]
    simp

theorem pre_go_getD (coeff : ℝ) : ∀ (k : ℕ) (buf : List ℝ), k < buf.length →
    ∀ j, j < buf.length →
    (pre_go coeff buf k).getD j 0 =
      if 1 ≤ j ∧ j ≤ k then buf.getD j 0 - coeff * buf.getD (j-1) 0
      else buf.getD j 0 := by
  intro k
  induction k with
  | zero =>
    intro buf _ j _
    rw [pre_go, if_neg (by omega)]
  | succ k ih =>
    intro buf hk j hj
    rw [pre_go]
    have hlen : (buf.set (k+1) (buf.getD (k+1) 0 - coeff * buf.getD k 0)).length =
        buf.length := by simp
    rw [ih _ (by rw [hlen]; omega) j (by rw [hlen]; omega)]
    by_cases h1 : 1 ≤ j ∧ j ≤ k
    · rw [if_pos h1, if_pos (by omega)]
      rw [getD_set_ne _ _ _ _ (by omega), getD_set_ne _ _ _ _ (by omega)]
    · rw [if_neg h1]
      by_cases h2 : j = k + 1
      · subst h2
        rw [if_pos (by omega)]
        rw [getD_set_self _ _ _ (by omega)]
        simp
      · rw [if_neg (by omega), getD_set_ne _ _ _ _ (by omega)]

/-- C9: audio_preemphasis maps x to y with y[0] = x[0]·(1 − coeff) and
y[i] = x[i] − coeff·x[i−1] for 1 ≤ i < n, using original predecessor values;
it is a no-op for sequences shorter than 2 and the identity for coeff = 0. -/
theorem C9_preemphasis_spec :
    (∀ (s : List ℝ) (c : ℝ), (audio_preemphasis s c).length = s.length) ∧
    (∀ (s : List ℝ) (c : ℝ), 2 ≤ s.length →
      (audio_preemphasis s c).getD 0 0 = s.getD 0 0 * (1 - c)) ∧
    (∀ (s : List ℝ) (c : ℝ), 2 ≤ s.length → ∀ j, 1 ≤ j → j < s.length →
      (audio_preemphasis s c).getD j 0 = s.getD j 0 - c * s.getD (j-1) 0) ∧
    (∀ (s : List ℝ) (c : ℝ), s.length < 2 → audio_preemphasis s c = s) ∧
    (∀ s : List ℝ, audio_preemphasis s 0 = s) := by
  have hlen : ∀ (s : List ℝ) (c : ℝ), (audio_preemphasis s c).length = s.length := by
    intro s c
    unfold audio_preemphasis
    split
    · rfl
    · rw [List.length_set, pre_go_length]
  have hhead : ∀ (s : List ℝ) (c : ℝ), 2 ≤ s.length →
      (audio_preemphasis s c).getD 0 0 = s.getD 0 0 * (1 - c) := by
    intro s c hs
    unfold audio_preemphasis
    rw [if_neg (by omega)]
    have hl : (pre_go c s (s.length - 1)).length = s.length := pre_go_length c _ s
    rw [getD_set_self _ _ _ (by rw [hl]; omega)]
    rw [pre_go_getD c (s.length - 1) s (by omega) 0 (by omega), if_neg (by omega)]
  have htail : ∀ (s : List ℝ) (c : ℝ), 2 ≤ s.length → ∀ j, 1 ≤ j → j < s.length →
      (audio_preemphasis s c).getD j 0 = s.getD j 0 - c * s.getD (j-1) 0 := by
    intro s c hs j hj1 hj2
    unfold audio_preemphasis
    rw [if_neg (by omega)]
    rw [getD_set_ne _ _ _ _ (by omega)]
    rw [pre_go_getD c (s.length - 1) s (by omega) j hj2, if_pos (by omega)]
  have hshort : ∀ (s : List ℝ) (c : ℝ), s.length < 2 → audio_preemphasis s c = s := by
    intro s c hs
    unfold audio_preemphasis
    rw [if_pos hs]
  refine ⟨hlen, hhead, htail, hshort, ?_⟩
  intro s
  by_cases hs : s.length < 2
  · exact hshort s 0 hs
  · apply List.ext_getElem (hlen s 0)
    intro i h1 h2
    have hD : (audio_preemphasis s 0).getD i 0 = s.getD i 0 := by
      rcases Nat.eq_zero_or_pos i with hi | hi
      · subst hi
        rw [hhead s 0 (by omega)]
        ring
      · rw [htail s 0 (by omega) i hi (by omega)]
        ring
    rw [List.getD_eq_getElem?_getD, List.getD_eq_getElem?_getD,
      List.getElem?_eq_getElem h1, List.getElem?_eq_getElem h2] at hD
    simpa using hD

/-- Witness for C9 at the concrete sequence [1, 2, 3] with coeff 2, and the
single-sample no-op. -/
theorem C9_preemphasis_witness :
    (audio_preemphasis [(1:ℝ), 2, 3] 2).getD 0 0 = 1 * (1 - 2) ∧
    (audio_preemphasis [(1:ℝ), 2, 3] 2).getD 1 0 = 2 - 2 * 1 ∧
    (audio_preemphasis [(1:ℝ), 2, 3] 2).getD 2 0 = 3 - 2 * 2 ∧
    audio_preemphasis [(5:ℝ)] 2 = [5] := by
  refine ⟨?_, ?_, ?_, C9_preemphasis_spec.2.2.2.1 [(5:ℝ)] 2 (by simp)⟩
  · rw [C9_preemphasis_spec.2.1 [(1:ℝ), 2, 3] 2 (by simp)]
    norm_num [List.getD]
  · rw [C9_preemphasis_spec.2.2.1 [(1:ℝ), 2, 3] 2 (by simp) 1 (by omega) (by simp)]
    norm_num [List.getD]
  · rw [C9_preemphasis_spec.2.2.1 [(1:ℝ), 2, 3] 2 (by simp) 2 (by omega) (by simp)]
    norm_num [List.getD]

/-- C8: with a nonempty input and nonzero rates, the resampler emits exactly
min(outCapacity, ceil(inLen/ratio)) samples where ratio = inRate/outRate,
output i interpolating the input at position i·ratio between the floor index
and its clamped successor weighted by the fractional part; with equal rates
it reproduces the input up to min(inLen, outCapacity), truncating silently. -/
theorem C8_resample_linear_spec :
    (∀ (input : List ℝ) (src dst cap : ℕ), 1 ≤ input.length → src ≠ 0 → dst ≠ 0 →
      (audio_resample_linear input src dst cap).length =
        min cap ⌈(input.length : ℝ) / ((src : ℝ) / (dst : ℝ))⌉.toNat) ∧
    (∀ (input : List ℝ) (src dst cap : ℕ), 1 ≤ input.length → src ≠ 0 → dst ≠ 0 →
      ∀ i, i < min cap ⌈(input.length : ℝ) / ((src : ℝ) / (dst : ℝ))⌉.toNat →
      (audio_resample_linear input src dst cap).getD i 0 =
        input.getD ⌊(i : ℝ) * ((src : ℝ) / (dst : ℝ))⌋.toNat 0 *
          (1 - ((i : ℝ) * ((src : ℝ) / (dst : ℝ)) -
            (⌊(i : ℝ) * ((src : ℝ) / (dst : ℝ))⌋.toNat : ℝ))) +
        input.getD (min (⌊(i : ℝ) * ((src : ℝ) / (dst : ℝ))⌋.toNat + 1)
            (input.length - 1)) 0 *
          ((i : ℝ) * ((src : ℝ) / (dst : ℝ)) -
            (⌊(i : ℝ) * ((src : ℝ) / (dst : ℝ))⌋.toNat : ℝ))) ∧
    (∀ (input : List ℝ) (rate cap : ℕ), 1 ≤ input.length → rate ≠ 0 →
      audio_resample_linear input rate rate cap = input.take (min input.length cap)) := by
  have hguard : ∀ (input : List ℝ) (src dst : ℕ), 1 ≤ input.length → src ≠ 0 → dst ≠ 0 →
      ¬ (input.length = 0 ∨ src = 0 ∨ dst = 0) := by
    intro input src dst h1 hs hd
    push_neg
    exact ⟨by omega, hs, hd⟩
  have hlen : ∀ (input : List ℝ) (src dst cap : ℕ), 1 ≤ input.length → src ≠ 0 → dst ≠ 0 →
      (audio_resample_linear input src dst cap).length =
        min cap ⌈(input.length : ℝ) / ((src : ℝ) / (dst : ℝ))⌉.toNat := by
    intro input src dst cap h1 hs hd
    unfold audio_resample_linear
    rw [if_neg (hguard input src dst h1 hs hd)]
    simp
  have hget : ∀ (input : List ℝ) (src dst cap : ℕ), 1 ≤ input.length → src ≠ 0 → dst ≠ 0 →
      ∀ i, i < min cap ⌈(input.length : ℝ) / ((src : ℝ) / (dst : ℝ))⌉.toNat →
      (audio_resample_linear input src dst cap).getD i 0 =
        input.getD ⌊(i : ℝ) * ((src : ℝ) / (dst : ℝ))⌋.toNat 0 *
          (1 - ((i : ℝ) * ((src : ℝ) / (dst : ℝ)) -
            (⌊(i : ℝ) * ((src : ℝ) / (dst : ℝ))⌋.toNat : ℝ))) +
        input.getD (min (⌊(i : ℝ) * ((src : ℝ) / (dst : ℝ))⌋.toNat + 1)
            (input.length - 1)) 0 *
          ((i : ℝ) * ((src : ℝ) / (dst : ℝ)) -
            (⌊(i : ℝ) * ((src : ℝ) / (dst : ℝ))⌋.toNat : ℝ)) := by
    intro input src dst cap h1 hs hd i hi
    unfold audio_resample_linear
    rw [if_neg (hguard input src dst h1 hs hd)]
    simp only
    rw [List.getD_eq_getElem?_getD, List.getElem?_map, List.getElem?_range hi]
    rfl
  refine ⟨hlen, hget, ?_⟩
  intro input rate cap h1 hr
  have hratio : ((rate : ℝ) / (rate : ℝ)) = 1 := by
    rw [div_self]
    exact_mod_cast hr
  have hceil : ⌈(input.length : ℝ) / ((rate : ℝ) / (rate : ℝ))⌉.toNat = input.length := by
    rw [hratio, div_one, Int.ceil_natCast]
    simp
  apply List.ext_getElem
  · rw [hlen input rate rate cap h1 hr hr, hceil, List.length_take]
    omega
  · intro i ha hb
    have hi : i < min cap input.length := by
      rw [hlen input rate rate cap h1 hr hr, hceil] at ha
      omega
    have hgi := hget input rate rate cap h1 hr hr i (by rw [hceil]; omega)
    rw [hratio] at hgi
    have hfloor : ⌊(i : ℝ) * 1⌋.toNat = i := by
      rw [mul_one, Int.floor_natCast]
      simp
    rw [hfloor] at hgi
    have hfrac : (i : ℝ) * 1 - (i : ℝ) = 0 := by ring
    rw [hfrac] at hgi
    have hgi2 : (audio_resample_linear input rate rate cap).getD i 0 = input.getD i 0 := by
      rw [hgi]
      ring
    have hlt : i < input.length := by omega
    rw [List.getD_eq_getElem?_getD, List.getElem?_eq_getElem ha] at hgi2
    rw [List.getD_eq_getElem?_getD, List.getElem?_eq_getElem hlt] at hgi2
    simp only [Option.getD_some] at hgi2
    rw [hgi2]
    rw [List.getElem_take]

/-- Witness for C8: identity resampling of [1, 2] at equal rates with ample
capacity, and the output length of a 2:1 downsample. -/
theorem C8_resample_linear_witness :
    audio_resample_linear [(1:ℝ), 2] 7 7 5 = [1, 2] ∧
    (audio_resample_linear [(1:ℝ), 2, 3, 4] 2 1 10).length = 2 := by
  constructor
  · rw [C8_resample_linear_spec.2.2 [(1:ℝ), 2] 7 5 (by simp) (by omega)]
    simp
  · rw [C8_resample_linear_spec.1 [(1:ℝ), 2, 3, 4] 2 1 10 (by simp) (by omega) (by omega)]
    rw [show ([(1:ℝ), 2, 3, 4].length : ℝ) / (((2:ℕ) : ℝ) / ((1:ℕ) : ℝ)) = ((2:ℕ) : ℝ) by
      norm_num]
    rw [Int.ceil_natCast]
    simp

theorem vad_frames_go_spec (samples : List ℝ) (frame_size hop_size : ℕ)
    (et zl zh : ℝ) (hhop : 1 ≤ hop_size) :
    ∀ (fuel off : ℕ), vad_frames_count samples.length frame_size hop_size off ≤ fuel →
    vad_frames_go samples samples.length frame_size hop_size et zl zh off fuel =
      some ((List.range (vad_frames_count samples.length frame_size hop_size off)).map
        (fun k => vad_detect ((samples.drop (off + k * hop_size)).take frame_size) et zl zh)) := by
  intro fuel
  induction fuel with
  | zero =>
    intro off hle
    have h0 : vad_frames_count samples.length frame_size hop_size off = 0 := by omega
    have hout : ¬ (off + frame_size ≤ samples.length) := by
      intro hc
      rw [vad_frames_count, if_pos hc] at h0
      exact Nat.succ_ne_zero _ h0
    rw [vad_frames_go, if_neg hout, h0]
    simp
  | succ fuel ih =>
    intro off hle
    by_cases hin : off + frame_size ≤ samples.length
    · have hcnt : vad_frames_count samples.length frame_size hop_size off =
          (samples.length - frame_size - off) / hop_size + 1 := by
        rw [vad_frames_count, if_pos hin]
      have hnext : vad_frames_count samples.length frame_size hop_size (off + hop_size) =
          (samples.length - frame_size - off) / hop_size := by
        rw [vad_frames_count]
        by_cases hin2 : off + hop_size + frame_size ≤ samples.length
        · rw [if_pos hin2]
          have harith : samples.length - frame_size - (off + hop_size) =
              samples.length - frame_size - off - hop_size := by omega
          rw [harith, ← Nat.div_eq_sub_div (by omega)
            (by omega : hop_size ≤ samples.length - frame_size - off)]
        · rw [if_neg hin2]
          have hsmall : samples.length - frame_size - off < hop_size := by omega
          rw [Nat.div_eq_of_lt hsmall]
      have hle2 : vad_frames_count samples.length frame_size hop_size (off + hop_size) ≤ fuel := by
        rw [hnext]
        rw [hcnt] at hle
        generalize (samples.length - frame_size - off) / hop_size = q at hle ⊢
        omega
      rw [vad_frames_go, if_pos hin, ih (off + hop_size) hle2, hnext, hcnt]
      simp only [Option.map_some, List.range_succ_eq_map, List.map_cons, List.map_map]
      refine congrArg some ?_
      change _ :: _ = _ :: _
      congr 1
      · rw [Nat.zero_mul, Nat.add_zero]
      · apply List.map_congr_left
        intro k _
        simp only [Function.comp_apply, Nat.succ_eq_add_one]
        rw [show off + hop_size + k * hop_size = off + (k + 1) * hop_size by ring]
    · rw [vad_frames_go, if_neg hin]
      rw [show vad_frames_count samples.length frame_size hop_size off = 0 from by
        rw [vad_frames_count, if_neg hin]]
      simp

/-- C7 (amended for hopSize ≥ 1): the scan classifies the frame at each
offset 0, hop, 2·hop, … while offset + frameSize ≤ totalLen, in increasing
offset order, yielding floor((totalLen − frameSize)/hop) + 1 flags when
totalLen ≥ frameSize and none otherwise; with hopSize = 0 it still returns
an empty flag sequence when totalLen < frameSize. -/
theorem C7_detect_frames_spec :
    (∀ (samples : List ℝ) (frame_size hop_size : ℕ) (et zl zh : ℝ), 1 ≤ hop_size →
      vad_detect_frames samples frame_size hop_size et zl zh =
        some ((List.range (if frame_size ≤ samples.length then
            (samples.length - frame_size) / hop_size + 1 else 0)).map
          (fun k => vad_detect ((samples.drop (k * hop_size)).take frame_size) et zl zh))) ∧
    (∀ (samples : List ℝ) (frame_size : ℕ) (et zl zh : ℝ),
      samples.length < frame_size →
      vad_detect_frames samples frame_size 0 et zl zh = some []) := by
  constructor
  · intro samples frame_size hop_size et zl zh hhop
    have hcnt0 : vad_frames_count samples.length frame_size hop_size 0 =
        if frame_size ≤ samples.length then
          (samples.length - frame_size) / hop_size + 1 else 0 := by
      rw [vad_frames_count]
      by_cases h : frame_size ≤ samples.length
      · rw [if_pos (by omega), if_pos h, Nat.sub_zero]
      · rw [if_neg (by omega), if_neg h]
    have hfuel : vad_frames_count samples.length frame_size hop_size 0 ≤
        samples.length + 1 := by
      rw [vad_frames_count]
      split
      · have := Nat.div_le_self (samples.length - frame_size - 0) hop_size
        omega
      · omega
    rw [vad_detect_frames, vad_frames_go_spec samples frame_size hop_size et zl zh hhop
      (samples.length + 1) 0 hfuel, hcnt0]
    refine congrArg some ?_
    apply List.map_congr_left
    intro k _
    rw [Nat.zero_add]
  · intro samples frame_size et zl zh hshort
    rw [vad_detect_frames, vad_frames_go, if_neg (by omega)]

/-- Counterexample to C7 as frozen: with hopSize = 0 and a frame that fits
(totalLen ≥ frameSize) the scan loop never terminates — the fuel-indexed
embedding returns none — instead of returning
floor((totalLen − frameSize)/hop) + 1 flags. -/
theorem C7_hop_zero_counterexample :
    vad_detect_frames [(0:ℝ)] 1 0 0 0 1 = none := by
  simp [vad_detect_frames, vad_frames_go]

/-- Witness for C7 on concrete inputs: a three-sample buffer scanned with
frame 2 and hop 1, and a too-short buffer with hop 0. -/
theorem C7_detect_frames_witness :
    vad_detect_frames [(1:ℝ), 1, 1] 2 1 0 0 1 =
      some ((List.range 2).map
        (fun k => vad_detect (([(1:ℝ), 1, 1].drop (k * 1)).take 2) 0 0 1)) ∧
    vad_detect_frames [(1:ℝ)] 2 0 0 0 1 = some [] := by
  constructor
  · rw [C7_detect_frames_spec.1 [(1:ℝ), 1, 1] 2 1 0 0 1 (by omega)]
    norm_num
  · exact C7_detect_frames_spec.2 [(1:ℝ)] 2 0 0 1 (by simp)

/-- fvs_go computes exactly the flag-level scan on the frame decisions. -/
theorem fvs_go_eq_seg_go (samples : List ℝ) (n frame_size : ℕ) (et : ℝ)
    (minF maxF maxS : ℕ) :
    ∀ (m off voiced_run run_start : ℕ) (segs : List (ℕ × ℕ)), n + 1 - off ≤ m →
    fvs_go samples n frame_size et minF maxF maxS off voiced_run run_start segs =
      seg_go minF maxF maxS frame_size n
        (fvs_flags samples n frame_size et off) off voiced_run run_start segs := by
  intro m
  induction m with
  | zero =>
    intro off voiced_run run_start segs hm
    have hout : ¬ (0 < frame_size ∧ off + frame_size ≤ n) := by omega
    rw [fvs_go, dif_neg hout, fvs_flags, dif_neg hout, seg_go]
  | succ m ih =>
    intro off voiced_run run_start segs hm
    by_cases hguard : 0 < frame_size ∧ off + frame_size ≤ n
    · have hm2 : n + 1 - (off + frame_size) ≤ m := by omega
      rw [fvs_go, dif_pos hguard, fvs_flags, dif_pos hguard]
      by_cases hv : et ≤ audio_energy_db ((samples.drop off).take frame_size)
      · rw [if_pos hv, decide_eq_true hv, seg_go, ih (off + frame_size) _ _ segs hm2]
      · rw [if_neg hv, decide_eq_false hv, seg_go, ih (off + frame_size) _ _ _ hm2]
    · rw [fvs_go, dif_neg hguard, fvs_flags, dif_neg hguard, seg_go]

/-- The flag-level scan from a general intermediate state equals the
filter/truncate/map description over the remaining maximal runs. -/
theorem seg_go_spec (minF maxF maxS fs n : ℕ) (hminF : 1 ≤ minF) :
    ∀ (fl : List Bool) (i r run_start : ℕ) (segs : List (ℕ × ℕ)),
    r ≤ i → (0 < r → run_start = (i - r) * fs) →
    seg_go minF maxF maxS fs n fl (i * fs) r run_start segs =
      segs ++ (((contRuns i r fl).filter
          (fun p => decide (minF ≤ p.2 ∧ p.2 ≤ maxF))).take (maxS - segs.length)).map
        (fun p => (p.1 * fs, if p.1 + p.2 = i + fl.length then n
          else (p.1 + p.2) * fs)) := by
  intro fl
  induction fl with
  | nil =>
    intro i r run_start segs hri hrs
    rw [seg_go, contRuns]
    by_cases hr : 0 < r
    · rw [if_pos hr]
      by_cases hdur : minF ≤ r ∧ r ≤ maxF
      · have hfilter : List.filter (fun p => decide (minF ≤ p.2 ∧ p.2 ≤ maxF))
            ([((i - r : ℕ), r)]) = [((i - r : ℕ), r)] := by
          simp [hdur.1, hdur.2]
        rw [hfilter]
        by_cases hcap : segs.length < maxS
        · rw [if_pos ⟨hdur.1, hdur.2, hcap⟩]
          obtain ⟨k, hk⟩ : ∃ k, maxS - segs.length = k + 1 :=
            ⟨maxS - segs.length - 1, by omega⟩
          rw [hk, List.take_succ_cons, List.take_nil, List.map_cons, List.map_nil]
          have hsum : (i - r) + r = i := by omega
          rw [hsum, List.length_nil, Nat.add_zero, if_pos rfl, hrs hr]
        · rw [if_neg (by omega : ¬ (minF ≤ r ∧ r ≤ maxF ∧ segs.length < maxS))]
          rw [show maxS - segs.length = 0 from by omega, List.take_zero, List.map_nil,
            List.append_nil]
      · have hfilter : List.filter (fun p => decide (minF ≤ p.2 ∧ p.2 ≤ maxF))
            ([((i - r : ℕ), r)]) = [] := by
          simp only [List.filter_cons, List.filter_nil]
          rw [if_neg (by simpa using hdur)]
        rw [hfilter, if_neg (by tauto), List.take_nil, List.map_nil, List.append_nil]
    · have hr0 : r = 0 := by omega
      rw [if_neg hr, if_neg (by omega : ¬ (minF ≤ r ∧ r ≤ maxF ∧ segs.length < maxS))]
      rw [List.filter_nil, List.take_nil, List.map_nil, List.append_nil]
  | cons b rest ih =>
    cases b with
    | true =>
      intro i r run_start segs hri hrs
      have hoff : i * fs + fs = (i + 1) * fs := by ring
      have hF : i + (true :: rest).length = (i + 1) + rest.length := by
        simp only [List.length_cons]
        omega
      rw [seg_go, hoff, contRuns, hF]
      rw [ih (i + 1) (r + 1) (if r = 0 then i * fs else run_start) segs (by omega) ?hstart]
      case hstart =>
        intro _
        by_cases hr : r = 0
        · rw [if_pos hr, hr]
          norm_num
        · rw [if_neg hr, hrs (by omega)]
          congr 1
          omega
    | false =>
      intro i r run_start segs hri hrs
      have hoff : i * fs + fs = (i + 1) * fs := by ring
      have hF : i + (false :: rest).length = (i + 1) + rest.length := by
        simp only [List.length_cons]
        omega
      rw [seg_go, hoff, contRuns, hF]
      rw [List.filter_append, List.take_append_eq_append_take, List.map_append]
      by_cases hr : 0 < r
      · rw [if_pos hr]
        by_cases hdur : minF ≤ r ∧ r ≤ maxF
        · have hfilter : List.filter (fun p => decide (minF ≤ p.2 ∧ p.2 ≤ maxF))
              ([((i - r : ℕ), r)]) = [((i - r : ℕ), r)] := by
            simp [hdur.1, hdur.2]
          rw [hfilter]
          by_cases hcap : segs.length < maxS
          · rw [if_pos ⟨hdur.1, hdur.2, hcap⟩]
            rw [ih (i + 1) 0 run_start (segs ++ [(run_start, i * fs)]) (by omega)
              (by omega)]
            obtain ⟨k, hk⟩ : ∃ k, maxS - segs.length = k + 1 :=
              ⟨maxS - segs.length - 1, by omega⟩
            rw [hk, List.take_succ_cons, List.take_nil, List.map_cons, List.map_nil]
            have hsum : (i - r) + r = i := by omega
            rw [hsum, if_neg (by omega : ¬ i = (i + 1) + rest.length), ← hrs hr]
            rw [show (segs ++ [(run_start, i * fs)]).length = segs.length + 1 from by simp]
            rw [show maxS - (segs.length + 1) = k from by omega,
              show k + 1 - [((i - r : ℕ), r)].length = k from by simp]
            rw [List.append_assoc]
          · rw [if_neg (by omega : ¬ (minF ≤ r ∧ r ≤ maxF ∧ segs.length < maxS))]
            rw [ih (i + 1) 0 run_start segs (by omega) (by omega)]
            rw [show maxS - segs.length = 0 from by omega]
            simp
        · have hfilter : List.filter (fun p => decide (minF ≤ p.2 ∧ p.2 ≤ maxF))
              ([((i - r : ℕ), r)]) = [] := by
            simp only [List.filter_cons, List.filter_nil]
            rw [if_neg (by simpa using hdur)]
          rw [hfilter, if_neg (by tauto)]
          rw [ih (i + 1) 0 run_start segs (by omega) (by omega)]
          simp
      · have hr0 : r = 0 := by omega
        rw [if_neg hr, if_neg (by omega : ¬ (minF ≤ r ∧ r ≤ maxF ∧ segs.length < maxS))]
        rw [ih (i + 1) 0 run_start segs (by omega) (by omega)]
        simp

theorem audio_rms_replicate_zero (k : ℕ) : audio_rms (List.replicate k 0) = 0 := by
  unfold audio_rms
  split
  · rfl
  · simp

theorem audio_energy_db_replicate_zero (k : ℕ) :
    audio_energy_db (List.replicate k 0) = -100 := by
  unfold audio_energy_db
  rw [if_pos (by rw [audio_rms_replicate_zero]; norm_num)]

theorem audio_rms_replicate_one (k : ℕ) (hk : 1 ≤ k) :
    audio_rms (List.replicate k 1) = 1 := by
  unfold audio_rms
  rw [if_neg (by simp; omega)]
  have hsum : ((List.replicate k (1:ℝ)).map (fun s => s * s)).sum = k := by
    simp
  rw [hsum, List.length_replicate]
  rw [div_self (show ((k : ℕ) : ℝ) ≠ 0 from by exact_mod_cast (by omega : k ≠ 0))]
  exact Real.sqrt_one

theorem audio_energy_db_replicate_one (k : ℕ) (hk : 1 ≤ k) :
    audio_energy_db (List.replicate k 1) = 0 := by
  unfold audio_energy_db
  rw [audio_rms_replicate_one k hk, if_neg (by norm_num)]
  rw [Real.logb_one]
  ring

/-- The flag sequence over a concatenation of frame-sized blocks is the list
of per-block energy decisions. -/
theorem fvs_flags_blocks (fs : ℕ) (hfs : 0 < fs) (et : ℝ) :
    ∀ (blocks : List (List ℝ)) (pre : List ℝ), (∀ bl ∈ blocks, bl.length = fs) →
    fvs_flags (pre ++ blocks.flatten) (pre.length + blocks.flatten.length) fs et
        pre.length =
      blocks.map (fun bl => decide (et ≤ audio_energy_db bl)) := by
  intro blocks
  induction blocks with
  | nil =>
    intro pre _
    rw [fvs_flags, dif_neg (by simp; omega)]
    simp
  | cons bl rest ih =>
    intro pre hlen
    have hbl : bl.length = fs := hlen bl (by simp)
    have hrest : ∀ b ∈ rest, b.length = fs := fun b hb => hlen b (by simp [hb])
    have hflat : (bl :: rest).flatten = bl ++ rest.flatten := List.flatten_cons
    have hguard : 0 < fs ∧ pre.length + fs ≤ pre.length + (bl :: rest).flatten.length := by
      rw [hflat]
      simp [hbl]
      omega
    rw [fvs_flags, dif_pos hguard]
    have hhead : ((pre ++ (bl :: rest).flatten).drop pre.length).take fs = bl := by
      rw [hflat, List.drop_left, ← hbl, List.take_left]
    rw [hhead, List.map_cons]
    have htail := ih (pre ++ bl) hrest
    rw [List.append_assoc] at htail
    rw [List.length_append, hbl] at htail
    rw [← hflat] at htail
    have hn : pre.length + fs + rest.flatten.length =
        pre.length + (bl :: rest).flatten.length := by
      rw [hflat]
      simp [hbl]
      omega
    rw [hn] at htail
    rw [htail]

theorem blocks_flatten_length (fs : ℕ) : ∀ (blocks : List (List ℝ)),
    (∀ bl ∈ blocks, bl.length = fs) → blocks.flatten.length = blocks.length * fs := by
  intro blocks
  induction blocks with
  | nil => intro _; simp
  | cons bl rest ih =>
    intro hlen
    rw [List.flatten_cons, List.length_append, hlen bl (by simp),
      ih (fun b hb => hlen b (by simp [hb]))]
    simp
    ring

theorem contRuns_replicate_false (t : List Bool) : ∀ (a i : ℕ),
    contRuns i 0 (List.replicate a false ++ t) = contRuns (i + a) 0 t := by
  intro a
  induction a with
  | zero => intro i; simp
  | succ a ih =>
    intro i
    rw [List.replicate_succ, List.cons_append, contRuns, if_neg (by omega), ih (i + 1)]
    rw [List.nil_append, show i + 1 + a = i + (a + 1) from by omega]

theorem contRuns_replicate_true (t : List Bool) : ∀ (b i r : ℕ),
    contRuns i r (List.replicate b true ++ t) = contRuns (i + b) (r + b) t := by
  intro b
  induction b with
  | zero => intro i r; simp
  | succ b ih =>
    intro i r
    rw [List.replicate_succ, List.cons_append, contRuns, ih (i + 1) (r + 1)]
    rw [show i + 1 + b = i + (b + 1) from by omega,
      show r + 1 + b = r + (b + 1) from by omega]

theorem contRuns_replicate_false_nil : ∀ (c i : ℕ),
    contRuns i 0 (List.replicate c false) = [] := by
  intro c
  induction c with
  | zero => intro i; rw [List.replicate_zero, contRuns, if_neg (by omega)]
  | succ c ih =>
    intro i
    rw [List.replicate_succ, contRuns, if_neg (by omega), ih (i + 1), List.nil_append]

/-- Maximal-run decomposition of a silence–voiced–silence frame pattern. -/
theorem contRuns_pattern (a b c : ℕ) :
    contRuns 0 0 (List.replicate a false ++ List.replicate b true ++
        List.replicate c false) =
      if 1 ≤ b then [((a : ℕ), b)] else [] := by
  rw [List.append_assoc, contRuns_replicate_false, contRuns_replicate_true]
  by_cases hb : 1 ≤ b
  · rw [if_pos hb]
    cases c with
    | zero =>
      rw [List.replicate_zero, contRuns, if_pos (by omega)]
      rw [Nat.zero_add, Nat.zero_add, Nat.add_sub_cancel]
    | succ c =>
      rw [List.replicate_succ, contRuns, if_pos (by omega),
        contRuns_replicate_false_nil, List.append_nil]
      rw [Nat.zero_add, Nat.zero_add, Nat.add_sub_cancel]
  · have hb0 : b = 0 := by omega
    rw [if_neg hb, hb0]
    rw [Nat.add_zero, Nat.zero_add, Nat.add_zero]
    exact contRuns_replicate_false_nil c a

/-- find_voiced_segments equals the runs-based description on its frame
flags, whenever the frame size is nonzero, the input holds at least one
frame, and minFrames ≥ 1. -/
theorem find_voiced_segments_spec (samples : List ℝ) (sr fm : ℕ) (et : ℝ)
    (minD maxD maxS : ℕ)
    (hfs : sr * fm / 1000 ≠ 0) (hn : ¬ samples.length < sr * fm / 1000)
    (hminF : 1 ≤ (minD + fm - 1) / fm) :
    find_voiced_segments samples sr fm et minD maxD maxS =
      fvsSpec (fvs_flags samples samples.length (sr * fm / 1000) et 0)
        (sr * fm / 1000) samples.length ((minD + fm - 1) / fm) (maxD / fm) maxS := by
  rw [find_voiced_segments, if_neg (by tauto)]
  rw [fvs_go_eq_seg_go samples samples.length (sr * fm / 1000) et _ _ maxS
    (samples.length + 1) 0 0 0 [] (by omega)]
  have hB := seg_go_spec ((minD + fm - 1) / fm) (maxD / fm) maxS (sr * fm / 1000)
    samples.length hminF (fvs_flags samples samples.length (sr * fm / 1000) et 0)
    0 0 0 [] (le_refl 0) (by omega)
  rw [Nat.zero_mul] at hB
  rw [hB, fvsSpec]
  simp

/-- Segments found on a silence–voiced–silence pattern of whole frames: a
frames of zeros, b frames of ones, c ≥ 1 frames of zeros, with a threshold
strictly above the −100 sentinel and at most 0. -/
theorem fvs_scenario (sr fm : ℕ) (et : ℝ) (minD maxD maxS a b c : ℕ)
    (hfs : 1 ≤ sr * fm / 1000) (het1 : -100 < et) (het2 : et ≤ 0)
    (hminF : 1 ≤ (minD + fm - 1) / fm) (hc : 1 ≤ c) :
    find_voiced_segments
      ((List.replicate a (List.replicate (sr * fm / 1000) (0:ℝ)) ++
        List.replicate b (List.replicate (sr * fm / 1000) (1:ℝ)) ++
        List.replicate c (List.replicate (sr * fm / 1000) (0:ℝ))).flatten)
      sr fm et minD maxD maxS =
      (((if 1 ≤ b then [((a : ℕ), b)] else []).filter
          (fun p => decide ((minD + fm - 1) / fm ≤ p.2 ∧ p.2 ≤ maxD / fm))).take
        maxS).map
        (fun p => (p.1 * (sr * fm / 1000), (p.1 + p.2) * (sr * fm / 1000))) := by
  have hblocks : ∀ bl ∈ List.replicate a (List.replicate (sr * fm / 1000) (0:ℝ)) ++
      List.replicate b (List.replicate (sr * fm / 1000) (1:ℝ)) ++
      List.replicate c (List.replicate (sr * fm / 1000) (0:ℝ)),
      bl.length = sr * fm / 1000 := by
    intro bl hbl
    simp only [List.mem_append, List.mem_replicate] at hbl
    rcases hbl with (⟨_, rfl⟩ | ⟨_, rfl⟩) | ⟨_, rfl⟩ <;> simp
  have hcount : (List.replicate a (List.replicate (sr * fm / 1000) (0:ℝ)) ++
      List.replicate b (List.replicate (sr * fm / 1000) (1:ℝ)) ++
      List.replicate c (List.replicate (sr * fm / 1000) (0:ℝ))).length = a + b + c := by
    simp
    omega
  have hnlen : (List.replicate a (List.replicate (sr * fm / 1000) (0:ℝ)) ++
      List.replicate b (List.replicate (sr * fm / 1000) (1:ℝ)) ++
      List.replicate c (List.replicate (sr * fm / 1000) (0:ℝ))).flatten.length =
      (a + b + c) * (sr * fm / 1000) := by
    rw [blocks_flatten_length (sr * fm / 1000) _ hblocks, hcount]
  have hn : ¬ (List.replicate a (List.replicate (sr * fm / 1000) (0:ℝ)) ++
      List.replicate b (List.replicate (sr * fm / 1000) (1:ℝ)) ++
      List.replicate c (List.replicate (sr * fm / 1000) (0:ℝ))).flatten.length <
      sr * fm / 1000 := by
    rw [hnlen]
    push_neg
    exact Nat.le_mul_of_pos_left _ (by omega)
  rw [find_voiced_segments_spec _ sr fm et minD maxD maxS (by omega) hn hminF]
  have hflags := fvs_flags_blocks (sr * fm / 1000) (by omega) et
    (List.replicate a (List.replicate (sr * fm / 1000) (0:ℝ)) ++
      List.replicate b (List.replicate (sr * fm / 1000) (1:ℝ)) ++
      List.replicate c (List.replicate (sr * fm / 1000) (0:ℝ))) [] hblocks
  rw [List.nil_append, List.length_nil, Nat.zero_add] at hflags
  have hgz : decide (et ≤ audio_energy_db (List.replicate (sr * fm / 1000) (0:ℝ))) =
      false := by
    rw [audio_energy_db_replicate_zero]
    exact decide_eq_false (not_le.mpr het1)
  have hgo : decide (et ≤ audio_energy_db (List.replicate (sr * fm / 1000) (1:ℝ))) =
      true := by
    rw [audio_energy_db_replicate_one (sr * fm / 1000) hfs]
    exact decide_eq_true het2
  rw [List.map_append, List.map_append, List.map_replicate, List.map_replicate,
    List.map_replicate, hgz, hgo] at hflags
  rw [hflags, fvsSpec, contRuns_pattern]
  simp only [List.length_append, List.length_replicate]
  apply List.map_congr_left
  intro p hp
  have hp1 : p ∈ List.filter (fun p => decide ((minD + fm - 1) / fm ≤ p.2 ∧
      p.2 ≤ maxD / fm)) (if 1 ≤ b then [((a : ℕ), b)] else []) := List.mem_of_mem_take hp
  have hp2 : p ∈ (if 1 ≤ b then [((a : ℕ), b)] else []) := List.mem_of_mem_filter hp1
  by_cases hb : 1 ≤ b
  · rw [if_pos hb] at hp2
    have hpe : p = ((a : ℕ), b) := by simpa using hp2
    subst hpe
    rw [if_neg (by omega : ¬ a + b = a + b + c)]
  · rw [if_neg hb] at hp2
    exact absurd hp2 (List.not_mem_nil p)

/-- C1: with frame size sampleRate·frameMs/1000 nonzero, at least one full
frame of input, and minFrames = ceil(minDurMs/frameMs) ≥ 1,
find_voiced_segments equals the runs description: maximal energy-gated voiced
runs are kept iff minFrames ≤ runFrames ≤ maxFrames, truncated to
maxSegments, each emitted as [runStart, currentOffset) — end = n for a run
reaching end of input.  In particular a single voiced run of exactly
minFrames frames bounded by silence yields exactly that one segment, a run
one frame shorter yields none, and a run exceeding maxFrames yields none. -/
theorem C1_find_voiced_segments_spec :
    (∀ (samples : List ℝ) (sr fm : ℕ) (et : ℝ) (minD maxD maxS : ℕ),
      sr * fm / 1000 ≠ 0 → ¬ samples.length < sr * fm / 1000 →
      1 ≤ (minD + fm - 1) / fm →
      find_voiced_segments samples sr fm et minD maxD maxS =
        fvsSpec (fvs_flags samples samples.length (sr * fm / 1000) et 0)
          (sr * fm / 1000) samples.length ((minD + fm - 1) / fm) (maxD / fm) maxS) ∧
    (∀ (sr fm : ℕ) (et : ℝ) (minD maxD maxS a b c : ℕ),
      1 ≤ sr * fm / 1000 → -100 < et → et ≤ 0 → 1 ≤ (minD + fm - 1) / fm →
      1 ≤ a → 1 ≤ c → b = (minD + fm - 1) / fm →
      (minD + fm - 1) / fm ≤ maxD / fm → 1 ≤ maxS →
      find_voiced_segments
        ((List.replicate a (List.replicate (sr * fm / 1000) (0:ℝ)) ++
          List.replicate b (List.replicate (sr * fm / 1000) (1:ℝ)) ++
          List.replicate c (List.replicate (sr * fm / 1000) (0:ℝ))).flatten)
        sr fm et minD maxD maxS =
        [(a * (sr * fm / 1000), (a + b) * (sr * fm / 1000))]) ∧
    (∀ (sr fm : ℕ) (et : ℝ) (minD maxD maxS a b c : ℕ),
      1 ≤ sr * fm / 1000 → -100 < et → et ≤ 0 → 1 ≤ (minD + fm - 1) / fm →
      1 ≤ a → 1 ≤ c → b + 1 = (minD + fm - 1) / fm →
      find_voiced_segments
        ((List.replicate a (List.replicate (sr * fm / 1000) (0:ℝ)) ++
          List.replicate b (List.replicate (sr * fm / 1000) (1:ℝ)) ++
          List.replicate c (List.replicate (sr * fm / 1000) (0:ℝ))).flatten)
        sr fm et minD maxD maxS = []) ∧
    (∀ (sr fm : ℕ) (et : ℝ) (minD maxD maxS a b c : ℕ),
      1 ≤ sr * fm / 1000 → -100 < et → et ≤ 0 → 1 ≤ (minD + fm - 1) / fm →
      1 ≤ a → 1 ≤ c → maxD / fm < b →
      find_voiced_segments
        ((List.replicate a (List.replicate (sr * fm / 1000) (0:ℝ)) ++
          List.replicate b (List.replicate (sr * fm / 1000) (1:ℝ)) ++
          List.replicate c (List.replicate (sr * fm / 1000) (0:ℝ))).flatten)
        sr fm et minD maxD maxS = []) := by
  refine ⟨find_voiced_segments_spec, ?_, ?_, ?_⟩
  · intro sr fm et minD maxD maxS a b c hfs het1 het2 hminF _ hc hb hmm hms
    rw [fvs_scenario sr fm et minD maxD maxS a b c hfs het1 het2 hminF hc]
    rw [if_pos (by omega)]
    obtain ⟨k, hk⟩ : ∃ k, maxS = k + 1 := ⟨maxS - 1, by omega⟩
    rw [hk, List.filter_cons,
      if_pos (by simp only [decide_eq_true_eq]; omega), List.filter_nil,
      List.take_succ_cons, List.take_nil, List.map_cons, List.map_nil]
  · intro sr fm et minD maxD maxS a b c hfs het1 het2 hminF _ hc hb
    rw [fvs_scenario sr fm et minD maxD maxS a b c hfs het1 het2 hminF hc]
    by_cases hb1 : 1 ≤ b
    · rw [if_pos hb1, List.filter_cons,
        if_neg (by simp only [decide_eq_true_eq]; omega), List.filter_nil]
      simp
    · rw [if_neg hb1]
      simp
  · intro sr fm et minD maxD maxS a b c hfs het1 het2 hminF _ hc hb
    rw [fvs_scenario sr fm et minD maxD maxS a b c hfs het1 het2 hminF hc]
    have hb1 : 1 ≤ b := Nat.lt_of_le_of_lt (Nat.zero_le _) hb
    have hnd : ¬ ((minD + fm - 1) / fm ≤ b ∧ b ≤ maxD / fm) :=
      fun hcon => absurd hcon.2 (not_le.mpr hb)
    rw [if_pos hb1, List.filter_cons,
      if_neg (by simpa using hnd), List.filter_nil]
    simp

/-- Witness for C1: frame size 2 from 1000 Hz · 2 ms; minFrames 2, maxFrames
3; a run of 2, 1, and 4 voiced frames between one-frame silences; and the
runs description on a two-sample all-voiced buffer. -/
theorem C1_find_voiced_segments_witness :
    find_voiced_segments (List.replicate 2 (1:ℝ)) 1000 2 (-50) 2 2 1 =
      fvsSpec (fvs_flags (List.replicate 2 (1:ℝ)) (List.replicate 2 (1:ℝ)).length
          (1000 * 2 / 1000) (-50) 0)
        (1000 * 2 / 1000) (List.replicate 2 (1:ℝ)).length ((2 + 2 - 1) / 2) (2 / 2) 1 ∧
    find_voiced_segments
      ((List.replicate 1 (List.replicate (1000 * 2 / 1000) (0:ℝ)) ++
        List.replicate 2 (List.replicate (1000 * 2 / 1000) (1:ℝ)) ++
        List.replicate 1 (List.replicate (1000 * 2 / 1000) (0:ℝ))).flatten)
      1000 2 (-50) 4 6 5 = [(2, 6)] ∧
    find_voiced_segments
      ((List.replicate 1 (List.replicate (1000 * 2 / 1000) (0:ℝ)) ++
        List.replicate 1 (List.replicate (1000 * 2 / 1000) (1:ℝ)) ++
        List.replicate 1 (List.replicate (1000 * 2 / 1000) (0:ℝ))).flatten)
      1000 2 (-50) 4 6 5 = [] ∧
    find_voiced_segments
      ((List.replicate 1 (List.replicate (1000 * 2 / 1000) (0:ℝ)) ++
        List.replicate 4 (List.replicate (1000 * 2 / 1000) (1:ℝ)) ++
        List.replicate 1 (List.replicate (1000 * 2 / 1000) (0:ℝ))).flatten)
      1000 2 (-50) 4 6 5 = [] := by
  refine ⟨C1_find_voiced_segments_spec.1 (List.replicate 2 (1:ℝ)) 1000 2 (-50) 2 2 1
      (by norm_num) (by norm_num) (by norm_num),
    ?_,
    C1_find_voiced_segments_spec.2.2.1 1000 2 (-50) 4 6 5 1 1 1 (by norm_num)
      (by norm_num) (by norm_num) (by norm_num) (by norm_num) (by norm_num) (by norm_num),
    C1_find_voiced_segments_spec.2.2.2 1000 2 (-50) 4 6 5 1 4 1 (by norm_num)
      (by norm_num) (by norm_num) (by norm_num) (by norm_num) (by norm_num) (by norm_num)⟩
  have h2 := C1_find_voiced_segments_spec.2.1 1000 2 (-50) 4 6 5 1 2 1 (by norm_num)
    (by norm_num) (by norm_num) (by norm_num) (by norm_num) (by norm_num) (by norm_num)
    (by norm_num) (by norm_num)
  rw [h2]

/-- C10: degenerate inputs yield degenerate outputs without failing: writes
and reads on a zero-capacity buffer transfer nothing, resampling an empty
input or with a zero rate yields no samples, segment extraction with a zero
frame size or a buffer shorter than one frame yields no segments, and an
empty frame has rms 0 and the −100 dB sentinel energy. -/
theorem C10_degenerate_inputs :
    (∀ data : List ℝ, (ring_write (ring_create 0) data).2 = 0) ∧
    (∀ n : ℕ, (ring_read (ring_create 0) n).2 = []) ∧
    (∀ src dst cap : ℕ, audio_resample_linear [] src dst cap = []) ∧
    (∀ (input : List ℝ) (dst cap : ℕ), audio_resample_linear input 0 dst cap = []) ∧
    (∀ (input : List ℝ) (src cap : ℕ), audio_resample_linear input src 0 cap = []) ∧
    (∀ (samples : List ℝ) (sr fm : ℕ) (et : ℝ) (minD maxD maxS : ℕ),
      sr * fm / 1000 = 0 ∨ samples.length < sr * fm / 1000 →
      find_voiced_segments samples sr fm et minD maxD maxS = []) ∧
    audio_rms [] = 0 ∧
    audio_energy_db [] = -100 := by
  have hrms : audio_rms ([] : List ℝ) = 0 := by
    simp [audio_rms]
  refine ⟨?_, ?_, ?_, ?_, ?_, ?_, hrms, ?_⟩
  · intro data
    cases data with
    | nil => rfl
    | cons d rest =>
      have hstep : ring_write (ring_create 0) (d :: rest) = (ring_create 0, 0) := by
        simp only [ring_write]
        rw [if_neg (by simp [ring_create])]
      rw [hstep]
  · intro n
    cases n with
    | zero => rfl
    | succ n =>
      have hstep : ring_read (ring_create 0) (n + 1) = (ring_create 0, []) := by
        simp only [ring_read]
        rw [if_neg (by simp [ring_create])]
      rw [hstep]
  · intro src dst cap
    rw [audio_resample_linear, if_pos (by simp)]
  · intro input dst cap
    rw [audio_resample_linear, if_pos (by simp)]
  · intro input src cap
    rw [audio_resample_linear, if_pos (by simp)]
  · intro samples sr fm et minD maxD maxS h
    rw [find_voiced_segments, if_pos h]
  · unfold audio_energy_db
    rw [hrms, if_pos (by norm_num)]

/-- Witness for C10: a buffer too short for one 160-sample frame. -/
theorem C10_degenerate_inputs_witness :
    find_voiced_segments [] 8000 20 (-35) 100 1000 5 = [] :=
  C10_degenerate_inputs.2.2.2.2.2.1 [] 8000 20 (-35) 100 1000 5 (Or.inr (by norm_num))

end Revia
